import Mathlib

/-!
Shallow embedding of the `aba` morphological-exponence engine
(`aba.py`, `nform.py`, `vform.py`).

A Python `frozenset` of feature-value tokens is embedded as a
`Finset String`; the `valuesList()` of a `MorphForm` (one slot value per
feature of its concrete class) is a `List (Finset String)`, called
`Values` below.  All of the class-generic machinery
(`contains`, `containment`, `nonImmediateContains`, `immediateContains`,
`isBetween`, `getPaths`, `isBadCell`, `isAba`, `DepOrMax`, `otEval`,
`getWinnerPartition`, `generateForms`, `findVocabularyRankingPairs`)
is translated on that representation.  The per-class
`special_imm_contains_dict` lookup (`specialImmediateContainsValue`)
becomes an explicit function argument of type `SpecialMap`.

Cross-class behaviour of `MorphForm.contains` (its type guard) is
modelled separately on `DynForm`, a form tagged with its concrete class,
because Python dispatches `__eq__` and the guard on runtime types.
-/

abbrev Val : Type := Finset String

abbrev Values : Type := List Val

/-- `specialImmediateContainsValue`, as a function from a slot value to the
list of slot values registered as immediately contained in it. -/
abbrev SpecialMap : Type := Val → List Val

namespace MorphForm

/-- The loop of `MorphForm.contains` after its equality test: zip the two
value lists (Python `zip` truncates at the shorter list) and require every
`self` slot to be a superset of the corresponding `other` slot. -/
def supersetZip (a b : Values) : Bool :=
  (a.zip b).all fun t => decide (t.2 ⊆ t.1)

/-- `MorphForm.contains` for two forms of one concrete class, where Python
`self == other` is equality of the two value lists.  (The cross-class type
guard of the source is modelled on `DynForm` below.) -/
def contains (a b : Values) : Bool :=
  if a = b then false else supersetZip a b

/-- `MorphForm.containment`. -/
def containment (a b : Values) : Bool :=
  contains a b || contains b a

/-- The `diffs` accumulator of `MorphForm.nonImmediateContains`: per slot,
count 1 if the `other` value is registered as special for the `self` value,
else the cardinality of the set difference. -/
def diffs (s : SpecialMap) (a b : Values) : Nat :=
  ((a.zip b).map fun t => if t.2 ∈ s t.1 then 1 else (t.1 \ t.2).card).sum

/-- `MorphForm.nonImmediateContains`. -/
def nonImmediateContains (s : SpecialMap) (a b : Values) : Bool :=
  if contains a b = false then false else decide (1 < diffs s a b)

/-- `MorphForm.nonImmediateContainment`. -/
def nonImmediateContainment (s : SpecialMap) (a b : Values) : Bool :=
  nonImmediateContains s a b || nonImmediateContains s b a

/-- `MorphForm.immediateContains`. -/
def immediateContains (s : SpecialMap) (a b : Values) : Bool :=
  contains a b && !(nonImmediateContains s a b)

/-- `MorphForm.immediateContainment`. -/
def immediateContainment (s : SpecialMap) (a b : Values) : Bool :=
  immediateContains s a b || immediateContains s b a

/-- `MorphForm.isBetween`. -/
def isBetween (x form1 form2 : Values) : Bool :=
  (contains x form1 && contains form2 x) || (contains x form2 && contains form1 x)

/-- `MorphForm.__lt__`: `self < other` iff `other.contains(self)`. -/
def lt (a b : Values) : Bool := contains b a

/-- Python `x > m` on `MorphForm`s: no `__gt__` is defined, so it resolves
to the reflected `m.__lt__(x)`, i.e. `x.contains(m)`. -/
def gt (a b : Values) : Bool := contains a b

end MorphForm

/-- Python `min(forms)`: fold keeping the current minimum, replacing it
when a later element compares `<` to it. -/
def pyMin (first : Values) (rest : List Values) : Values :=
  rest.foldl (fun m x => if MorphForm.lt x m then x else m) first

/-- Python `max(forms)`: fold replacing the current maximum when a later
element compares `>` (i.e. reflected `<`) to it. -/
def pyMax (first : Values) (rest : List Values) : Values :=
  rest.foldl (fun m x => if MorphForm.gt x m then x else m) first

/-- `getBottom`: all elements equal to `min(forms)`, in order.
(`min` of the empty list raises in Python; that case never arises here and
is embedded as `[]`.) -/
def getBottom (forms : List Values) : List Values :=
  match forms with
  | [] => []
  | f :: rest => forms.filter fun x => x = pyMin f rest

/-- `getTop`: all elements equal to `max(forms)`, in order. -/
def getTop (forms : List Values) : List Values :=
  match forms with
  | [] => []
  | f :: rest => forms.filter fun x => x = pyMax f rest

/-- `wellFormedArgs(group_vals, *argv)`: with exactly one vararg it returns
True immediately; otherwise it returns False iff two distinct non-`'zero'`
varargs both belong to one value group. -/
def wellFormedArgs (groupVals : List (List String)) (argv : List String) : Bool :=
  if argv.length = 1 then true
  else !(argv.any fun a => argv.any fun b => groupVals.any fun valListGroup =>
    a ≠ "zero" && b ≠ "zero" && a ≠ b && decide (a ∈ valListGroup) && decide (b ∈ valListGroup))

/-- `NForm.__init__` calls `wellFormedArgs(grouped_values, argv)`, passing the
whole token tuple `argv` as ONE vararg.  `wellFormedArgs` therefore receives a
singleton vararg list and returns True by its `len(argv) == 1` branch without
ever inspecting the element.  We encode that single (never-inspected) tuple
argument as one string token. -/
def tupleToken (argv : List String) : String :=
  String.intercalate "," argv

namespace NForm

def allValues : List String :=
  ["zero", "sg", "pl", "nom", "acc", "dat", "neu", "mas", "fem"]

/-- `feature_val_dict['Number']`. -/
def numberTokens : List String := ["zero", "sg", "pl"]

/-- `feature_val_dict['Case']`. -/
def caseTokens : List String := ["zero", "nom", "acc", "dat"]

/-- `feature_val_dict['Gender']`. -/
def genderTokens : List String := ["zero", "neu", "mas", "fem"]

/-- `grouped_values`: the list of the `feature_val_dict` value sets. -/
def groupedValues : List (List String) := [numberTokens, caseTokens, genderTokens]

/-- `string_to_val_dict`.  (`dict.get` yields None on a missing key; it is
only ever applied to valid non-`'zero'` tokens, so the default `∅` branch is
unreachable.) -/
def strValDict (t : String) : Val :=
  if t = "zero" then ∅
  else if t = "sg" then {"sg"}
  else if t = "pl" then {"sg", "pl"}
  else if t = "nom" then {"nom"}
  else if t = "acc" then {"nom", "acc"}
  else if t = "dat" then {"nom", "acc", "dat"}
  else if t = "neu" then {"neu"}
  else if t = "mas" then {"neu", "mas"}
  else if t = "fem" then {"neu", "mas", "fem"}
  else ∅

/-- `special_imm_contains_dict` of `NForm` is empty. -/
def special : SpecialMap := fun _ => []

end NForm

/-- The state an `NForm` instance carries: its `number`, `case` and `gender`
slot values (field `caseVal` since `case` is reserved in Lean). -/
structure NForm where
  number : Val
  caseVal : Val
  gender : Val
deriving DecidableEq

/-- `NForm.valuesList`. -/
def NForm.valuesList (f : NForm) : Values := [f.number, f.caseVal, f.gender]

/-- `NForm.__init__`, with construction failures as `Except.error`. -/
def NForm.make (argv : List String) : Except String NForm :=
  if 3 < argv.length then
    .error "args passed to NForm, which accepts at most 3"
  else if !(argv.all fun v => decide (v ∈ NForm.allValues)) then
    .error "Invalid value(s) passed to NForm"
  else if !(wellFormedArgs NForm.groupedValues [tupleToken argv]) then
    .error "More than one value for a feature passed to NForm"
  else
    let numb := argv.filter fun v => decide (v ∈ NForm.numberTokens) && v ≠ "zero"
    let cas := argv.filter fun v => decide (v ∈ NForm.caseTokens) && v ≠ "zero"
    let gend := argv.filter fun v => decide (v ∈ NForm.genderTokens) && v ≠ "zero"
    .ok { number := match numb with | [] => ∅ | v :: _ => NForm.strValDict v
          caseVal := match cas with | [] => ∅ | v :: _ => NForm.strValDict v
          gender := match gend with | [] => ∅ | v :: _ => NForm.strValDict v }

namespace VForm

def allValues : List String := ["zero", "pl", "part", "auth", "addr"]

/-- `feature_val_dict['Person']`. -/
def personTokens : List String := ["zero", "part", "auth", "addr"]

/-- `feature_val_dict['Number']`. -/
def numberTokens : List String := ["zero", "pl"]

/-- `grouped_values`: the list of the `feature_val_dict` value sets. -/
def groupedValues : List (List String) := [personTokens, numberTokens]

/-- `string_to_val_dict`. -/
def strValDict (t : String) : Val :=
  if t = "zero" then ∅
  else if t = "part" then {"part"}
  else if t = "auth" then {"part", "auth"}
  else if t = "addr" then {"part", "addr"}
  else if t = "pl" then {"pl"}
  else ∅

/-- `special_imm_contains_dict` of `VForm`: the `auth` and `addr` person
values each register the empty set as immediately contained. -/
def special : SpecialMap := fun v =>
  if v = ({"part", "auth"} : Val) then [∅]
  else if v = ({"part", "addr"} : Val) then [∅]
  else []

end VForm

/-- The state a `VForm` instance carries: its `number` and `person` values. -/
structure VForm where
  number : Val
  person : Val
deriving DecidableEq

/-- `VForm.valuesList`. -/
def VForm.valuesList (f : VForm) : Values := [f.number, f.person]

/-- `VForm.__init__`, with construction failures as `Except.error`.
Its well-formedness test is `wellFormedArgs(argv)`: the token tuple lands in
the `group_vals` parameter (each token standing where a value set should be)
and NO varargs are passed, so `wellFormedArgs` loops over an empty `argv`
and returns True without inspecting `group_vals`. -/
def VForm.make (argv : List String) : Except String VForm :=
  if 2 < argv.length then
    .error "args passed to VForm, which accepts at most 2"
  else if !(argv.all fun v => decide (v ∈ VForm.allValues)) then
    .error "Invalid value(s) passed to VForm"
  else if !(wellFormedArgs (argv.map fun s => [s]) []) then
    .error "More than one value for a feature passed to VForm"
  else
    let numb := argv.filter fun v => decide (v ∈ VForm.numberTokens) && v ≠ "zero"
    let pers := argv.filter fun v => decide (v ∈ VForm.personTokens) && v ≠ "zero"
    .ok { number := match numb with | [] => ∅ | v :: _ => VForm.strValDict v
          person := match pers with | [] => ∅ | v :: _ => VForm.strValDict v }

/-- The concrete `MorphForm` subclasses of the repository. -/
inductive FormKind where
  | nform
  | vform
deriving DecidableEq

/-- A form together with its runtime class, for the cross-class behaviour of
`MorphForm.contains` / `__eq__`. -/
structure DynForm where
  kind : FormKind
  vals : Values
deriving DecidableEq

/-- `MorphForm.__eq__`: compares value lists when the runtime types agree,
and (falling off the end) returns None — falsy — otherwise. -/
def DynForm.eq (a b : DynForm) : Bool :=
  if a.kind = b.kind then a.vals = b.vals else false

/-- `MorphForm.contains` with its runtime-type guard as written in the
source: the guard tests `not type(self) == type(self)` — comparing
`type(self)` with itself — so it can never fire and the advertised
cross-class exception is never raised. -/
def DynForm.contains (a b : DynForm) : Except String Bool :=
  if DynForm.eq a b then .ok false
  else if !(a.kind = a.kind) then
    .error "Containment is only defined between objects of the same class."
  else .ok (MorphForm.supersetZip a.vals b.vals)

/-- `MorphForm.containment` on `DynForm`s, with Python `or` short-circuit. -/
def DynForm.containment (a b : DynForm) : Except String Bool := do
  let x ← DynForm.contains a b
  if x then .ok true else DynForm.contains b a

/-- Python `p[-1]` on a path.  (Indexing an empty list raises; paths here
are never empty, and the `[]` branch is unreachable.) -/
def pyLast : List Values → Values
  | [] => []
  | [x] => x
  | _ :: x :: rest => pyLast (x :: rest)

/-- `getExtensions` (local to `getPaths`): extend `path` by every member of
`forms` that immediately contains its last element and is contained by
`top`. -/
def getExtensions (s : SpecialMap) (path : List Values) (top : Values)
    (forms : List Values) : List (List Values) :=
  let exts := forms.filter fun f =>
    MorphForm.immediateContains s f (pyLast path) && MorphForm.contains top f
  exts.map fun e => path ++ [e]

/-- The `while True` loop of `getPaths`: replace the traversed paths by all
their one-step extensions, stopping when nothing changed or nothing
extended.  The loop terminates because each round lengthens every path by
one and paths are strictly increasing chains in a finite domain; `fuel` is
a bound on the number of rounds, chosen large enough at the call site
(`getPaths` passes `pool length + 3`).  Every property proved below holds
for every fuel value. -/
def pathsLoop (s : SpecialMap) (top : Values) (domain : List Values) :
    Nat → List (List Values) → List (List Values)
  | 0, pathsTraversed => pathsTraversed
  | fuel + 1, pathsTraversed =>
    let extended :=
      (pathsTraversed.filter fun p => MorphForm.contains top (pyLast p)).flatMap
        fun p => getExtensions s p top domain
    if extended = pathsTraversed ∨ extended.length = 0 then pathsTraversed
    else pathsLoop s top domain fuel extended

/-- `getPaths`.  The Python function is heterogeneous: on the
immediate-containment branch it returns the flat list `[bottom, top]` of two
forms, while the other branches return a list of paths; result elements are
embedded as `Sum.inl form` / `Sum.inr path` accordingly.  `list(set(...))`
builds the deduplicated domain (the arbitrary Python set order is embedded
as first-occurrence order; no property proved below depends on it). -/
def getPaths (s : SpecialMap) (form1 form2 : Values) (listOfForms : List Values) :
    List (Values ⊕ List Values) :=
  if MorphForm.containment form1 form2 then
    let domain := ((listOfForms.filter fun f => MorphForm.isBetween f form1 form2)
      ++ [form1, form2]).dedup
    let bottom := (getBottom [form1, form2]).headD []
    let top := (getTop [form1, form2]).headD []
    if MorphForm.immediateContainment s form1 form2 then
      [Sum.inl bottom, Sum.inl top]
    else
      let pathsTraversed := pathsLoop s top domain (listOfForms.length + 3) [[bottom]]
      if pathsTraversed = [[bottom]] then []
      else pathsTraversed.map fun p => Sum.inr (p.drop 1)
  else []

/-- The `containment_pairs` accumulation of `isBadCell`: every ordered pair
`(f, g)` of cell members with `g.nonImmediateContains(f)`. -/
def containmentPairs (s : SpecialMap) (cell : List Values) : List (Values × Values) :=
  cell.flatMap fun f =>
    (cell.filter fun g => MorphForm.nonImmediateContains s g f).map fun g => (f, g)

/-- `isBadCell`: some containment pair of the cell has no connecting path
inside the cell. -/
def isBadCell (s : SpecialMap) (cell : List Values) : Bool :=
  (containmentPairs s cell).any fun p => (getPaths s p.1 p.2 cell).length = 0

/-- `isAba`: scan the cells in order; at the first cell with more than one
member, return `isBadCell` of it (the `break` ends the scan); `False` if no
such cell exists. -/
def isAba (s : SpecialMap) : List (List Values) → Bool
  | [] => false
  | cell :: rest => if 1 < cell.length then isBadCell s cell else isAba s rest

/-- `DepSubroutine`. -/
def DepSubroutine (urValue srValue : Val) : Nat :=
  ((urValue ∪ srValue) \ urValue).card

/-- `MaxSubroutine`. -/
def MaxSubroutine (urValue srValue : Val) : Nat :=
  ((urValue ∪ srValue) \ srValue).card

/-- The `total_score` of one candidate in `DepOrMax`: the scores of the
listed features, summed.  `item` stands for the subclass `__getitem__`
(retrieval of a slot value by feature name). -/
def totalScore {F : Type} (constr : Val → Val → Nat) (item : F → String → Val)
    (features : List String) (ur form : F) : Nat :=
  (features.map fun i => constr (item ur i) (item form i)).sum

/-- The candidate loop of `DepOrMax`, carrying `best_so_far` (None before
the first candidate) and the winner list. -/
def depOrMaxLoop {F : Type} (score : F → Nat) :
    List F → Option Nat → List F → List F
  | [], _, winners => winners
  | form :: rest, none, winners =>
    depOrMaxLoop score rest (some (score form)) (winners ++ [form])
  | form :: rest, some best, winners =>
    if best < score form then depOrMaxLoop score rest (some best) winners
    else if score form = best then depOrMaxLoop score rest (some best) (winners ++ [form])
    else depOrMaxLoop score rest (some (score form)) [form]

/-- `DepOrMax`. -/
def DepOrMax {F : Type} (constr : Val → Val → Nat) (item : F → String → Val)
    (features : List String) (ur : F) (candidates : List F) : List F :=
  depOrMaxLoop (totalScore constr item features ur) candidates none []

/-- `otEval`: apply each constraint of the ranking in order to the surviving
candidates, skipping to the final `return` (the `break`) as soon as at most
one candidate remains. -/
def otEval {F : Type} : List (F → List F → List F) → F → List F → List F
  | [], _, candidates => candidates
  | constraint :: rest, urForm, candidates =>
    if 1 < candidates.length then otEval rest urForm (constraint urForm candidates)
    else candidates

/-- A ranking entry: a constraint together with its `__name__` (the source
passes around bare functions and prints their names via `printRanking`). -/
abbrev Ranking (F : Type) : Type := List (String × (F → List F → List F))

/-- `printRanking`: the tuple of constraint names. -/
def printRanking {F : Type} (rank : Ranking F) : List String :=
  rank.map Prod.fst

/-- `frozenset(c) == frozenset(d)`: the two lists hold the same elements. -/
def sameSet {F : Type} [DecidableEq F] (c d : List F) : Bool :=
  c.all (fun x => decide (x ∈ d)) && d.all (fun x => decide (x ∈ c))

/-- `areSamePartitions`: the symmetric difference of the two cell sets (cells
compared as frozensets) is empty, i.e. each cell of either partition is some
cell of the other up to order and multiplicity. -/
def areSamePartitions {F : Type} [DecidableEq F] (part1 part2 : List (List F)) : Bool :=
  part1.all (fun c => part2.any (sameSet c)) && part2.all (fun c => part1.any (sameSet c))

/-- Python `<` on the `(form, string)` pairs of `sorted(temp_dict.items())`:
tuple comparison moves past equal first components (via `__eq__`) and
otherwise compares the forms with `MorphForm.__lt__`. -/
def pyPairLt {F : Type} [DecidableEq F] (formLt : F → F → Bool)
    (a b : F × String) : Bool :=
  if a.1 = b.1 then decide (a.2 < b.2) else formLt a.1 b.1

/-- Insertion of one element by a boolean comparator. -/
def orderedInsertB {α : Type} (ltb : α → α → Bool) (x : α) : List α → List α
  | [] => [x]
  | y :: l => if ltb x y then x :: y :: l else y :: orderedInsertB ltb x l

/-- `sorted(...)`, as an insertion sort by a boolean comparator.  The
comparator derived from `MorphForm.__lt__` is not a total order, so Python's
Timsort yields some deterministic permutation of the items; every property
proved below depends only on the output being a permutation of the input. -/
def insertionSortB {α : Type} (ltb : α → α → Bool) : List α → List α
  | [] => []
  | x :: l => orderedInsertB ltb x (insertionSortB ltb l)

/-- The `defaultdict(list)` grouping of `getWinnerPartition`: for each
distinct string value in first-occurrence order, the list of keys carrying
that value, in order. -/
def groupByVal {F : Type} [DecidableEq F] (items : List (F × String)) : List (List F) :=
  ((items.map Prod.snd).dedup).map fun v =>
    (items.filter fun kv => kv.2 = v).map Prod.fst

/-- `getWinnerPartition`.  The `winners` dict maps each distinct underlying
form (first-occurrence order, duplicates overwritten with the same value)
to its `otEval` winners; `temp_dict` renders each winner list as a string
(`strList`, standing for Python `str`); the items are sorted and grouped by
rendered value.  `formLt` stands for `MorphForm.__lt__` on the concrete
class. -/
def getWinnerPartition {F : Type} [DecidableEq F] (formLt : F → F → Bool)
    (strList : List F → String) (rank : List (F → List F → List F))
    (urForms srForms : List F) : List (List F) :=
  let items := urForms.dedup.map fun ur => (ur, strList (otEval rank ur srForms))
  groupByVal (insertionSortB (pyPairLt formLt) items)

/-- The per-class data `generateForms` and `findVocabularyRankingPairs`
consult: the ordered `feature_val_dict` (feature order fixed, each value
set listed in some order), the constructor, `__repr__`, and `__lt__`. -/
structure FormType (F : Type) where
  featureValDict : List (List String)
  mkF : List String → F
  reprF : F → String
  formLt : F → F → Bool

/-- `itertools.product` over the listed token groups, rightmost varying
fastest. -/
def listProduct {α : Type} : List (List α) → List (List α)
  | [] => [[]]
  | l :: rest => l.flatMap fun x => (listProduct rest).map fun t => x :: t

/-- Python `str` of a list of forms, via each form's `__repr__`. -/
def pyStrList {F : Type} (reprF : F → String) (l : List F) : String :=
  "[" ++ String.intercalate ", " (l.map reprF) ++ "]"

/-- `generateForms`: instantiate every combination of feature values, minus
those using an excluded value.  (The Python vararg/list unwrapping of
`values` is resolved at the call site: the search driver always passes the
exclusion list.) -/
def generateForms {F : Type} (ft : FormType F) (values : List String) : List F :=
  let allArgs := listProduct ft.featureValDict
  let args :=
    if values.length = 0 then allArgs
    else allArgs.filter fun a => a.all fun t => !(decide (t ∈ values))
  args.map ft.mkF

/-- The inner ranking loop of `findVocabularyRankingPairs`: collect
`printRanking` of every ranking whose winner partition matches the target,
breaking after the first hit when `stop` is set. -/
def goodRanks {F : Type} [DecidableEq F] (ft : FormType F)
    (urPartition : List (List F)) (urs vocab : List F) (stop : Bool) :
    List (Ranking F) → List (List String)
  | [] => []
  | rank :: rest =>
    if areSamePartitions
        (getWinnerPartition ft.formLt (pyStrList ft.reprF) (rank.map Prod.snd) urs vocab)
        urPartition then
      if stop then [printRanking rank]
      else printRanking rank :: goodRanks ft urPartition urs vocab stop rest
    else goodRanks ft urPartition urs vocab stop rest

/-- The vocabulary loop of `findVocabularyRankingPairs`: keep, in order,
each vocabulary whose `good_ranks` list is nonempty, paired with it. -/
def fvrpLoop {F : Type} (good : List F → List (List String)) :
    List (List F) → List (List F × List (List String))
  | [] => []
  | vocab :: rest =>
    if 0 < (good vocab).length then (vocab, good vocab) :: fvrpLoop good rest
    else fvrpLoop good rest

/-- `findVocabularyRankingPairs` (progress printing and the optional report
file are side effects outside the returned value).  `it.combinations`
enumerates the same size-`len(ur_partition)` subsequences of the generated
forms as `List.sublistsLen`; no property proved below depends on the
enumeration order. -/
def findVocabularyRankingPairs {F : Type} [DecidableEq F] (ft : FormType F)
    (urPartition : List (List F)) (rankings : List (Ranking F))
    (listValuesToExclude : List String) (stop : Bool) :
    List (List F × List (List String)) :=
  let sforms := generateForms ft listValuesToExclude
  let urs := urPartition.flatten
  let vocabList := List.sublistsLen urPartition.length sforms
  fvrpLoop (fun vocab => goodRanks ft urPartition urs vocab stop rankings) vocabList

/-- A list of forms is an immediate-containment chain: each element
immediately contains its predecessor. -/
def chainImmB (s : SpecialMap) : List Values → Bool
  | [] => true
  | [_] => true
  | a :: b :: rest => MorphForm.immediateContains s b a && chainImmB s (b :: rest)

/-- Soundness predicate for one path returned by `getPaths`: its members
come from the candidate pool and lie between the endpoints, and with the
dropped lower endpoint re-attached at the front it is an
immediate-containment chain all of whose elements the upper endpoint
strictly contains. -/
def pathOK (s : SpecialMap) (form1 form2 : Values) (pool : List Values)
    (p : List Values) : Bool :=
  let bottom := (getBottom [form1, form2]).headD []
  let top := (getTop [form1, form2]).headD []
  p.all (fun x => decide (x ∈ pool) && MorphForm.isBetween x form1 form2)
    && chainImmB s (bottom :: p)
    && MorphForm.contains top (pyLast (bottom :: p))

/-- `valuesList` of `NForm()`. -/
def nZeroV : Values := [∅, ∅, ∅]

/-- `valuesList` of `NForm('sg')`. -/
def nSgV : Values := [{"sg"}, ∅, ∅]

/-- `valuesList` of `NForm('pl')`. -/
def nPlV : Values := [{"sg", "pl"}, ∅, ∅]

/-- `valuesList` of `NForm('nom')`. -/
def nNomV : Values := [∅, {"nom"}, ∅]

/-- `valuesList` of `NForm('acc')`. -/
def nAccV : Values := [∅, {"nom", "acc"}, ∅]

/-- `valuesList` of `NForm('dat')`. -/
def nDatV : Values := [∅, {"nom", "acc", "dat"}, ∅]

/-- `valuesList` of `NForm('pl', 'nom')`. -/
def nPlNomV : Values := [{"sg", "pl"}, {"nom"}, ∅]

namespace MorphForm

theorem contains_iff {a b : Values} :
    contains a b = true ↔ a ≠ b ∧ supersetZip a b = true := by
  unfold contains
  split <;> simp_all

theorem contains_ne {a b : Values} (h : contains a b = true) : a ≠ b :=
  (contains_iff.mp h).1

theorem contains_self (a : Values) : contains a a = false := by
  simp [contains]

theorem supersetZip_cons {x y : Val} {a b : Values} :
    supersetZip (x :: a) (y :: b) = (decide (y ⊆ x) && supersetZip a b) := by
  simp [supersetZip]

theorem supersetZip_antisymm :
    ∀ {a b : Values}, a.length = b.length →
      supersetZip a b = true → supersetZip b a = true → a = b := by
  intro a
  induction a with
  | nil =>
    intro b hl _ _
    exact (List.length_eq_zero.mp hl.symm).symm
  | cons x a ih =>
    intro b hl h1 h2
    cases b with
    | nil => simp at hl
    | cons y b =>
      rw [supersetZip_cons, Bool.and_eq_true, decide_eq_true_eq] at h1 h2
      have hxy : x = y := Finset.Subset.antisymm h2.1 h1.1
      have hab : a = b := by
        apply ih _ h1.2 h2.2
        simpa using hl
      rw [hxy, hab]

theorem supersetZip_trans :
    ∀ {a b c : Values}, a.length = b.length → b.length = c.length →
      supersetZip a b = true → supersetZip b c = true → supersetZip a c = true := by
  intro a
  induction a with
  | nil => intro b c _ _ _ _; simp [supersetZip]
  | cons x a ih =>
    intro b c hab hbc h1 h2
    cases b with
    | nil => simp at hab
    | cons y b =>
      cases c with
      | nil => simp at hbc
      | cons z c =>
        rw [supersetZip_cons, Bool.and_eq_true, decide_eq_true_eq] at h1 h2 ⊢
        refine ⟨Finset.Subset.trans h2.1 h1.1, ih ?_ ?_ h1.2 h2.2⟩
        · simpa using hab
        · simpa using hbc

theorem contains_asymm {a b : Values} (hl : a.length = b.length)
    (h : contains a b = true) : contains b a = false := by
  rcases contains_iff.mp h with ⟨hne, hz⟩
  cases hba : contains b a with
  | false => rfl
  | true =>
    rcases contains_iff.mp hba with ⟨_, hz2⟩
    exact absurd (supersetZip_antisymm hl hz hz2) hne

theorem contains_trans {a b c : Values} (hab : a.length = b.length)
    (hbc : b.length = c.length) (h1 : contains a b = true)
    (h2 : contains b c = true) : contains a c = true := by
  rcases contains_iff.mp h1 with ⟨hne1, hz1⟩
  rcases contains_iff.mp h2 with ⟨hne2, hz2⟩
  refine contains_iff.mpr ⟨?_, supersetZip_trans hab hbc hz1 hz2⟩
  intro hac
  subst hac
  exact hne1 (supersetZip_antisymm hab hz1 hz2)

theorem immediateContains_contains {s : SpecialMap} {a b : Values}
    (h : immediateContains s a b = true) : contains a b = true := by
  rw [immediateContains, Bool.and_eq_true] at h
  exact h.1

end MorphForm
theorem getBottomTop_pair_up {f1 f2 : Values} (hl : f1.length = f2.length)
    (h : MorphForm.contains f2 f1 = true) :
    (getBottom [f1, f2]).headD [] = f1 ∧ (getTop [f1, f2]).headD [] = f2 := by
  have hasym : MorphForm.contains f1 f2 = false := MorphForm.contains_asymm hl.symm h
  have hne : f2 ≠ f1 := MorphForm.contains_ne h
  have hne2 : f1 ≠ f2 := fun hh => hne hh.symm
  constructor
  · simp [getBottom, pyMin, MorphForm.lt, hasym, hne2]
  · simp [getTop, pyMax, MorphForm.gt, h, hne2, hne]

theorem getBottomTop_pair_down {f1 f2 : Values} (hl : f1.length = f2.length)
    (h : MorphForm.contains f1 f2 = true) :
    (getBottom [f1, f2]).headD [] = f2 ∧ (getTop [f1, f2]).headD [] = f1 := by
  have hasym : MorphForm.contains f2 f1 = false := MorphForm.contains_asymm hl h
  have hne : f1 ≠ f2 := MorphForm.contains_ne h
  have hne2 : f2 ≠ f1 := fun hh => hne hh.symm
  constructor
  · simp [getBottom, pyMin, MorphForm.lt, h, hne2, hne]
  · simp [getTop, pyMax, MorphForm.gt, hasym, hne2, hne]

theorem pyLast_cons_cons (a b : Values) (t : List Values) :
    pyLast (a :: b :: t) = pyLast (b :: t) := rfl

theorem pyLast_mem : ∀ (l : List Values), l ≠ [] → pyLast l ∈ l := by
  intro l
  induction l with
  | nil => intro h; exact absurd rfl h
  | cons a t ih =>
    intro _
    cases t with
    | nil => simp [pyLast]
    | cons b t2 =>
      rw [pyLast_cons_cons]
      exact List.mem_cons_of_mem a (ih (by simp))

theorem chainImmB_snoc (s : SpecialMap) :
    ∀ (p : List Values) (f : Values), p ≠ [] → chainImmB s p = true →
      MorphForm.immediateContains s f (pyLast p) = true →
      chainImmB s (p ++ [f]) = true := by
  intro p
  induction p with
  | nil => intro f h _ _; exact absurd rfl h
  | cons a rest ih =>
    intro f _ hch himm
    cases rest with
    | nil =>
      simp only [pyLast] at himm
      simp [chainImmB, himm]
    | cons b t =>
      rw [pyLast_cons_cons] at himm
      have hch2 : MorphForm.immediateContains s b a = true ∧ chainImmB s (b :: t) = true := by
        simpa [chainImmB] using hch
      have htail : chainImmB s ((b :: t) ++ [f]) = true :=
        ih f (by simp) hch2.2 himm
      simpa [chainImmB, hch2.1] using htail

theorem pathsLoop_inv (s : SpecialMap) (form1 form2 bottom top : Values)
    (pool domain : List Values) (n : Nat)
    (h1 : form1.length = n) (h2 : form2.length = n)
    (hp : ∀ x ∈ pool, x.length = n)
    (hdom : ∀ x ∈ domain, x ∈ pool ∨ x = form1 ∨ x = form2)
    (hor : (bottom = form1 ∧ top = form2) ∨ (bottom = form2 ∧ top = form1)) :
    ∀ fuel paths,
      (∀ q ∈ paths, q.head? = some bottom ∧ chainImmB s q = true ∧
        ∀ x ∈ q.tail, x ∈ pool ∧ MorphForm.contains top x = true ∧
          MorphForm.contains x bottom = true) →
      ∀ q ∈ pathsLoop s top domain fuel paths,
        q.head? = some bottom ∧ chainImmB s q = true ∧
        ∀ x ∈ q.tail, x ∈ pool ∧ MorphForm.contains top x = true ∧
          MorphForm.contains x bottom = true := by
  have hblen : bottom.length = n := by
    rcases hor with ⟨hb, _⟩ | ⟨hb, _⟩ <;> rw [hb] <;> assumption
  intro fuel
  induction fuel with
  | zero => intro paths hInv q hq; exact hInv q hq
  | succ fuel ih =>
    intro paths hInv q hq
    rw [pathsLoop] at hq
    split at hq
    · exact hInv q hq
    · refine ih _ ?_ q hq
      intro q' hq'
      rw [List.mem_flatMap] at hq'
      obtain ⟨p, hpmem, hq'ext⟩ := hq'
      rw [List.mem_filter] at hpmem
      obtain ⟨hppaths, _⟩ := hpmem
      obtain ⟨hhead, hchain, htail⟩ := hInv p hppaths
      -- q' = p ++ [f] for some f picked by the extension filter
      rw [getExtensions, List.mem_map] at hq'ext
      obtain ⟨f, hfmem, hq'eq⟩ := hq'ext
      rw [List.mem_filter, Bool.and_eq_true] at hfmem
      obtain ⟨hfdom, himmf, htopf⟩ := hfmem
      -- p is nonempty with head bottom
      obtain ⟨tl, rfl⟩ : ∃ tl, p = bottom :: tl := by
        cases p with
        | nil => simp at hhead
        | cons a t =>
          have ha : a = bottom := by simpa using hhead
          exact ⟨t, by rw [ha]⟩
      subst hq'eq
      -- the new element strictly contains bottom
      have hflen : f.length = n := by
        rcases hdom f hfdom with hfp | hf1 | hf2
        · exact hp f hfp
        · rw [hf1]; exact h1
        · rw [hf2]; exact h2
      have hfbottom : MorphForm.contains f bottom = true := by
        cases tl with
        | nil =>
          have : pyLast (bottom :: ([] : List Values)) = bottom := rfl
          rw [this] at himmf
          exact MorphForm.immediateContains_contains himmf
        | cons x t =>
          have hlast : pyLast (bottom :: x :: t) = pyLast (x :: t) := pyLast_cons_cons _ _ _
          rw [hlast] at himmf
          have hlastmem : pyLast (x :: t) ∈ x :: t := pyLast_mem _ (by simp)
          obtain ⟨hlpool, _, hlbottom⟩ := htail _ (by simpa using hlastmem)
          have hllen : (pyLast (x :: t)).length = n := hp _ hlpool
          exact MorphForm.contains_trans (by rw [hflen, hllen])
            (by rw [hllen, hblen])
            (MorphForm.immediateContains_contains himmf) hlbottom
      have hfnb : f ≠ bottom := MorphForm.contains_ne hfbottom
      have hfnt : top ≠ f := MorphForm.contains_ne htopf
      have hfpool : f ∈ pool := by
        rcases hdom f hfdom with hfp | hf1 | hf2
        · exact hfp
        · exfalso
          rcases hor with ⟨hb, ht⟩ | ⟨hb, ht⟩
          · exact hfnb (hf1.trans hb.symm)
          · exact hfnt (ht.trans hf1.symm)
        · exfalso
          rcases hor with ⟨hb, ht⟩ | ⟨hb, ht⟩
          · exact hfnt (ht.trans hf2.symm)
          · exact hfnb (hf2.trans hb.symm)
      refine ⟨by simp, ?_, ?_⟩
      · exact chainImmB_snoc s (bottom :: tl) f (by simp) hchain himmf
      · intro x hx
        simp only [List.cons_append, List.tail_cons] at hx ⊢
        rw [List.mem_append] at hx
        rcases hx with hx | hx
        · exact htail x (by simpa using hx)
        · rw [List.mem_singleton] at hx
          subst hx
          exact ⟨hfpool, htopf, hfbottom⟩

theorem isBetween_of_bounds {form1 form2 bottom top x : Values}
    (hor : (bottom = form1 ∧ top = form2) ∨ (bottom = form2 ∧ top = form1))
    (htx : MorphForm.contains top x = true)
    (hxb : MorphForm.contains x bottom = true) :
    MorphForm.isBetween x form1 form2 = true := by
  rw [MorphForm.isBetween]
  rcases hor with ⟨hb, ht⟩ | ⟨hb, ht⟩
  · rw [← hb, ← ht, hxb, htx]
    simp
  · rw [← hb, ← ht, hxb, htx]
    simp

/-- Claim C1 (amended): every path returned by `getPaths` consists of pool
members lying between the endpoints and, with the lower endpoint
re-attached at the front, is an immediate-containment chain whose elements
the upper endpoint strictly contains (the chain need not reach the upper
endpoint). -/
theorem getPaths_paths_sound (s : SpecialMap) (form1 form2 : Values)
    (pool : List Values) (n : Nat)
    (h1 : form1.length = n) (h2 : form2.length = n)
    (hp : ∀ x ∈ pool, x.length = n) :
    ∀ p, Sum.inr p ∈ getPaths s form1 form2 pool →
      pathOK s form1 form2 pool p = true := by
  intro p hp2
  simp only [getPaths] at hp2
  split at hp2
  case isFalse => simp at hp2
  case isTrue hcont =>
    split at hp2
    case isTrue => simp at hp2
    case isFalse himm =>
      split at hp2
      case isTrue => simp at hp2
      case isFalse hne =>
        rw [List.mem_map] at hp2
        obtain ⟨q, hqmem, hqeq⟩ := hp2
        have hqdrop : q.drop 1 = p := by
          simpa using hqeq
        -- orientation of the endpoints
        have hcont2 : MorphForm.contains form1 form2 = true ∨
            MorphForm.contains form2 form1 = true := by
          simpa [MorphForm.containment, Bool.or_eq_true] using hcont
        have hor : (((getBottom [form1, form2]).headD [] = form1 ∧
              (getTop [form1, form2]).headD [] = form2) ∨
            ((getBottom [form1, form2]).headD [] = form2 ∧
              (getTop [form1, form2]).headD [] = form1)) ∧
            MorphForm.contains ((getTop [form1, form2]).headD [])
              ((getBottom [form1, form2]).headD []) = true := by
          rcases hcont2 with hc | hc
          · have hbt := getBottomTop_pair_down (by rw [h1, h2]) hc
            refine ⟨Or.inr ⟨hbt.1, hbt.2⟩, ?_⟩
            rw [hbt.1, hbt.2]
            exact hc
          · have hbt := getBottomTop_pair_up (by rw [h1, h2]) hc
            refine ⟨Or.inl ⟨hbt.1, hbt.2⟩, ?_⟩
            rw [hbt.1, hbt.2]
            exact hc
        obtain ⟨horient, htb⟩ := hor
        have hdom : ∀ x ∈ ((pool.filter fun f => MorphForm.isBetween f form1 form2)
            ++ [form1, form2]).dedup, x ∈ pool ∨ x = form1 ∨ x = form2 := by
          intro x hx
          rw [List.mem_dedup, List.mem_append] at hx
          rcases hx with hx | hx
          · exact Or.inl (List.mem_of_mem_filter hx)
          · right
            simpa using hx
        have hinv := pathsLoop_inv s form1 form2
          ((getBottom [form1, form2]).headD []) ((getTop [form1, form2]).headD [])
          pool _ n h1 h2 hp hdom horient (pool.length + 3) [[(getBottom [form1, form2]).headD []]]
          (by
            intro q' hq'
            rw [List.mem_singleton] at hq'
            subst hq'
            refine ⟨rfl, by simp [chainImmB], by simp⟩)
          q hqmem
        obtain ⟨hhead, hchain, htail⟩ := hinv
        obtain ⟨tl, rfl⟩ : ∃ tl, q = ((getBottom [form1, form2]).headD []) :: tl := by
          cases q with
          | nil => simp at hhead
          | cons a t =>
            have ha : a = (getBottom [form1, form2]).headD [] := by simpa using hhead
            exact ⟨t, by rw [ha]⟩
        have hptl : p = tl := by simpa using hqdrop.symm
        subst hptl
        rw [pathOK]
        simp only [Bool.and_eq_true]
        refine ⟨⟨?_, ?_⟩, ?_⟩
        · rw [List.all_eq_true]
          intro x hx
          obtain ⟨hxpool, hxtop, hxbottom⟩ := htail x (by simpa using hx)
          rw [Bool.and_eq_true, decide_eq_true_eq]
          exact ⟨hxpool, isBetween_of_bounds horient hxtop hxbottom⟩
        · exact hchain
        · cases p with
          | nil => exact htb
          | cons x t =>
            rw [pyLast_cons_cons]
            have hmem : pyLast (x :: t) ∈ x :: t := pyLast_mem _ (by simp)
            obtain ⟨_, hxtop, _⟩ := htail _ (by simpa using hmem)
            exact hxtop

/-- Claim C1, counterexample: with `form1 = NForm()`, `form2 = NForm('pl','nom')`
and pool `[NForm('sg')]`, `getPaths` returns the single path `[NForm('sg')]`,
whose last element is NOT immediately contained by the upper endpoint
`NForm('pl','nom')` (the path stops strictly short of the upper endpoint),
contrary to the claim. -/
theorem getPaths_c1_counterexample :
    getPaths NForm.special nZeroV nPlNomV [nSgV] = [Sum.inr [nSgV]]
      ∧ MorphForm.immediateContains NForm.special nPlNomV nSgV = false
      ∧ MorphForm.contains nPlNomV nSgV = true := by
  decide

/-- Witness for `getPaths_paths_sound` at the concrete input of the
counterexample: the returned path `[NForm('sg')]` satisfies `pathOK`. -/
theorem getPaths_paths_sound_witness :
    pathOK NForm.special nZeroV nPlNomV [nSgV] [nSgV] = true :=
  getPaths_paths_sound NForm.special nZeroV nPlNomV [nSgV] 3 rfl rfl
    (by decide) [nSgV]
    (by
      rw [show getPaths NForm.special nZeroV nPlNomV [nSgV] = [Sum.inr [nSgV]] from by decide]
      exact List.mem_singleton_self _)

/-- Claim C2: calling `contains` (and `containment`) on forms of different
concrete classes — here `NForm('sg')` and `VForm('pl')` — returns a plain
boolean instead of failing: the runtime-type guard of the source compares
`type(self)` with itself and never fires. -/
theorem contains_cross_type_returns_bool :
    (⟨FormKind.nform, nSgV⟩ : DynForm).kind ≠ (⟨FormKind.vform, [{"pl"}, ∅]⟩ : DynForm).kind
      ∧ DynForm.contains ⟨FormKind.nform, nSgV⟩ ⟨FormKind.vform, [{"pl"}, ∅]⟩ = .ok false
      ∧ DynForm.containment ⟨FormKind.nform, nSgV⟩ ⟨FormKind.vform, [{"pl"}, ∅]⟩ = .ok false := by
  refine ⟨by decide, rfl, rfl⟩

/-- Claim C3: `NForm('sg','pl')` and `VForm('auth','addr')` each pass two
distinct non-zero tokens of one feature group, yet both constructors
succeed (keeping the first matching token), because `wellFormedArgs` is
miscalled; called as intended, on the unpacked tokens with the class's
grouped values, `wellFormedArgs` rejects both inputs. -/
theorem constructors_accept_conflicting_tokens :
    NForm.make ["sg", "pl"] = .ok ⟨{"sg"}, ∅, ∅⟩
      ∧ wellFormedArgs NForm.groupedValues ["sg", "pl"] = false
      ∧ VForm.make ["auth", "addr"] = .ok ⟨∅, {"part", "auth"}⟩
      ∧ wellFormedArgs VForm.groupedValues ["auth", "addr"] = false := by
  refine ⟨rfl, by decide, rfl, by decide⟩

/-- Claim C4: on forms in an immediate-containment relation — here
`NForm()` and `NForm('sg')` — `getPaths` returns the flat two-form list
`[bottom, top]`, not the one-element list of paths `[[bottom, top]]` that
its declared return type `list[ListOfForms]` promises. -/
theorem getPaths_immediate_flat_pair :
    getPaths NForm.special nZeroV nSgV [] = [Sum.inl nZeroV, Sum.inl nSgV]
      ∧ getPaths NForm.special nZeroV nSgV [] ≠ [Sum.inr [nZeroV, nSgV]] := by
  decide

/-- Claim C5: on forms of one concrete class (hence with lists of equal slot
counts), `contains` is a strict partial order: irreflexive, asymmetric (and
hence never between equal forms), and transitive. -/
theorem contains_strict_partial_order (a b c : Values)
    (hab : a.length = b.length) (hbc : b.length = c.length) :
    MorphForm.contains a a = false
      ∧ (MorphForm.contains a b = true → MorphForm.contains b a = false ∧ a ≠ b)
      ∧ (MorphForm.contains a b = true → MorphForm.contains b c = true →
          MorphForm.contains a c = true) :=
  ⟨MorphForm.contains_self a,
   fun h => ⟨MorphForm.contains_asymm hab h, MorphForm.contains_ne h⟩,
   fun h1 h2 => MorphForm.contains_trans hab hbc h1 h2⟩

/-- Witness for `contains_strict_partial_order` on the chain
`NForm('pl') ⊃ NForm('sg') ⊃ NForm()`. -/
theorem contains_strict_partial_order_witness :
    MorphForm.contains nPlV nPlV = false
      ∧ (MorphForm.contains nSgV nPlV = false ∧ nPlV ≠ nSgV)
      ∧ MorphForm.contains nPlV nZeroV = true := by
  obtain ⟨hirr, hasym, htrans⟩ :=
    contains_strict_partial_order nPlV nSgV nZeroV rfl rfl
  exact ⟨hirr, hasym (by decide), htrans (by decide) (by decide)⟩

theorem isAba_skip (s : SpecialMap) :
    ∀ (pre rest2 : List (List Values)), (∀ d ∈ pre, d.length ≤ 1) →
      isAba s (pre ++ rest2) = isAba s rest2 := by
  intro pre
  induction pre with
  | nil => intro rest2 _; rfl
  | cons d t ih =>
    intro rest2 hpre
    have hd : ¬(1 < d.length) := by
      have := hpre d (by simp)
      omega
    rw [List.cons_append]
    simp only [isAba]
    rw [if_neg hd]
    exact ih rest2 fun x hx => hpre x (by simp [hx])

theorem isAba_no_multimember (s : SpecialMap) :
    ∀ part : List (List Values), (∀ d ∈ part, d.length ≤ 1) →
      isAba s part = false := by
  intro part
  induction part with
  | nil => intro _; rfl
  | cons d t ih =>
    intro hall
    have hd : ¬(1 < d.length) := by
      have := hall d (by simp)
      omega
    simp only [isAba]
    rw [if_neg hd]
    exact ih fun x hx => hall x (by simp [hx])

/-- Claim C6: `isAba` returns `isBadCell` of the first cell with more than
one member — whatever follows that cell, bad or not — and `false` when no
cell has more than one member. -/
theorem isAba_first_multimember_cell (s : SpecialMap) (pre : List (List Values))
    (cell : List Values) (post part : List (List Values)) :
    ((∀ d ∈ pre, d.length ≤ 1) → 1 < cell.length →
      isAba s (pre ++ cell :: post) = isBadCell s cell)
      ∧ ((∀ d ∈ part, d.length ≤ 1) → isAba s part = false) := by
  constructor
  · intro hpre hcell
    rw [isAba_skip s pre (cell :: post) hpre]
    simp only [isAba]
    rw [if_pos hcell]
  · exact isAba_no_multimember s part

/-- Witness for `isAba_first_multimember_cell`: the partition whose cells
are `[NForm('acc')]`, `[NForm(), NForm('sg')]` and `[NForm('nom'), NForm('dat')]`
is not ABA — the first two-member cell is good and decides the answer —
even though the later cell `[NForm('nom'), NForm('dat')]` is bad; and the
all-singleton partition `[[NForm('acc')], [NForm('pl')]]` is not ABA. -/
theorem isAba_first_multimember_cell_witness :
    isAba NForm.special ([[nAccV]] ++ [nZeroV, nSgV] :: [[nNomV, nDatV]]) = false
      ∧ isBadCell NForm.special [nNomV, nDatV] = true
      ∧ isAba NForm.special [[nAccV], [nPlV]] = false := by
  obtain ⟨h1, h2⟩ := isAba_first_multimember_cell NForm.special
    [[nAccV]] [nZeroV, nSgV] [[nNomV, nDatV]] [[nAccV], [nPlV]]
  refine ⟨?_, by decide, h2 (by decide)⟩
  exact (h1 (by decide) (by decide)).trans (by decide)

/-- Claim C8: `otEval` leaves a zero- or one-candidate list untouched by any
ranking, hands the surviving candidates of each constraint to the next one
while more than one candidate remains, and returns the candidates when the
ranking is exhausted. -/
theorem otEval_spec {F : Type} (rank : List (F → List F → List F)) (ur x : F)
    (candidates : List F) (c : F → List F → List F)
    (rest : List (F → List F → List F)) :
    otEval rank ur [x] = [x]
      ∧ otEval rank ur ([] : List F) = []
      ∧ otEval ([] : List (F → List F → List F)) ur candidates = candidates
      ∧ otEval (c :: rest) ur candidates =
          (if 1 < candidates.length then otEval rest ur (c ur candidates)
           else candidates) := by
  refine ⟨?_, ?_, rfl, rfl⟩
  · cases rank with
    | nil => rfl
    | cons c2 r => simp [otEval]
  · cases rank with
    | nil => rfl
    | cons c2 r => simp [otEval]

theorem foldl_min_le {F : Type} (score : F → Nat) :
    ∀ (l : List F) (b : Nat),
      l.foldl (fun m g => Nat.min m (score g)) b ≤ b := by
  intro l
  induction l with
  | nil => intro b; exact Nat.le_refl b
  | cons x t ih =>
    intro b
    calc (x :: t).foldl (fun m g => Nat.min m (score g)) b
        = t.foldl (fun m g => Nat.min m (score g)) (Nat.min b (score x)) := rfl
      _ ≤ Nat.min b (score x) := ih _
      _ ≤ b := Nat.min_le_left _ _

theorem foldl_min_le_of_mem {F : Type} (score : F → Nat) :
    ∀ (l : List F) (b : Nat) (x : F), x ∈ l →
      l.foldl (fun m g => Nat.min m (score g)) b ≤ score x := by
  intro l
  induction l with
  | nil => intro b x hx; simp at hx
  | cons y t ih =>
    intro b x hx
    rcases List.mem_cons.mp hx with hx | hx
    · subst hx
      calc (x :: t).foldl (fun m g => Nat.min m (score g)) b
          = t.foldl (fun m g => Nat.min m (score g)) (Nat.min b (score x)) := rfl
        _ ≤ Nat.min b (score x) := foldl_min_le score t _
        _ ≤ score x := Nat.min_le_right _ _
    · exact ih _ x hx

theorem le_foldl_min {F : Type} (score : F → Nat) :
    ∀ (l : List F) (b c : Nat), c ≤ b → (∀ g ∈ l, c ≤ score g) →
      c ≤ l.foldl (fun m g => Nat.min m (score g)) b := by
  intro l
  induction l with
  | nil => intro b c hc _; exact hc
  | cons y t ih =>
    intro b c hc hall
    refine ih _ c ?_ fun g hg => hall g (by simp [hg])
    exact Nat.le_min.mpr ⟨hc, hall y (by simp)⟩

theorem depOrMaxLoop_spec {F : Type} (score : F → Nat) :
    ∀ (rest : List F) (b : Nat) (winners : List F),
      depOrMaxLoop score rest (some b) winners =
        (if rest.foldl (fun m g => Nat.min m (score g)) b = b then winners else [])
          ++ rest.filter fun g =>
              score g = rest.foldl (fun m g => Nat.min m (score g)) b := by
  intro rest
  induction rest with
  | nil =>
    intro b winners
    simp [depOrMaxLoop]
  | cons g rest ih =>
    intro b winners
    have hfold : (g :: rest).foldl (fun m g => Nat.min m (score g)) b
        = rest.foldl (fun m g => Nat.min m (score g)) (Nat.min b (score g)) := rfl
    rcases Nat.lt_trichotomy b (score g) with h1 | h1 | h1
    · -- b < score g: g loses, winners kept
      have hmin : Nat.min b (score g) = b := Nat.min_eq_left (Nat.le_of_lt h1)
      have hgne : ¬(score g = rest.foldl (fun m g => Nat.min m (score g)) b) := by
        have := foldl_min_le score rest b
        omega
      rw [show depOrMaxLoop score (g :: rest) (some b) winners
          = depOrMaxLoop score rest (some b) winners from by
        simp only [depOrMaxLoop]
        rw [if_pos h1]]
      rw [ih b winners, hfold, hmin]
      simp [List.filter_cons, hgne]
    · -- score g = b: g ties, appended
      have hmin : Nat.min b (score g) = b := by
        rw [h1]
        exact Nat.min_self _
      rw [show depOrMaxLoop score (g :: rest) (some b) winners
          = depOrMaxLoop score rest (some b) (winners ++ [g]) from by
        simp only [depOrMaxLoop]
        rw [if_neg (by omega), if_pos h1.symm]]
      rw [ih b (winners ++ [g]), hfold, hmin]
      by_cases hM : rest.foldl (fun m g => Nat.min m (score g)) b = b
      · rw [if_pos hM, if_pos hM]
        have hg : score g = rest.foldl (fun m g => Nat.min m (score g)) b := by omega
        simp [List.filter_cons, hg]
      · rw [if_neg hM, if_neg hM]
        have hg : ¬(score g = rest.foldl (fun m g => Nat.min m (score g)) b) := by omega
        simp [List.filter_cons, hg]
    · -- score g < b: winners reset to [g]
      have hmin : Nat.min b (score g) = score g := Nat.min_eq_right (Nat.le_of_lt h1)
      rw [show depOrMaxLoop score (g :: rest) (some b) winners
          = depOrMaxLoop score rest (some (score g)) [g] from by
        simp only [depOrMaxLoop]
        rw [if_neg (by omega), if_neg (by omega)]]
      rw [ih (score g) [g], hfold, hmin]
      set M := rest.foldl (fun m g => Nat.min m (score g)) (score g) with hMdef
      have hMle : M ≤ score g := by
        rw [hMdef]
        exact foldl_min_le score rest _
      have hMne : ¬(M = b) := by omega
      rw [if_neg hMne]
      by_cases hg : M = score g
      · rw [if_pos hg]
        simp [List.filter_cons, hg.symm]
      · rw [if_neg hg]
        have hg2 : ¬(score g = M) := fun hh => hg hh.symm
        simp [List.filter_cons, hg2]

/-- Claim C7: `DepOrMax` returns exactly the candidates whose total score
over the listed features is minimal, in their original order; the empty
candidate list yields the empty list, and all-tied scores keep every
candidate. -/
theorem DepOrMax_min_winners {F : Type} (constr : Val → Val → Nat)
    (item : F → String → Val) (features : List String) (ur : F)
    (candidates : List F) :
    DepOrMax constr item features ur candidates
      = (candidates.filter fun x => candidates.all fun g =>
          decide (totalScore constr item features ur x ≤ totalScore constr item features ur g))
      ∧ DepOrMax constr item features ur ([] : List F) = []
      ∧ (∀ k, (∀ x ∈ candidates, totalScore constr item features ur x = k) →
          DepOrMax constr item features ur candidates = candidates) := by
  have hmain : DepOrMax constr item features ur candidates
      = candidates.filter fun x => candidates.all fun g =>
          decide (totalScore constr item features ur x ≤ totalScore constr item features ur g) := by
    set score := totalScore constr item features ur with hscore
    cases candidates with
    | nil => rfl
    | cons f rest =>
      rw [show DepOrMax constr item features ur (f :: rest)
          = depOrMaxLoop score rest (some (score f)) [f] from rfl]
      rw [depOrMaxLoop_spec score rest (score f) [f]]
      set M := rest.foldl (fun m g => Nat.min m (score g)) (score f) with hMdef
      have hMleF : M ≤ score f := by
        rw [hMdef]
        exact foldl_min_le score rest _
      have hMmem : ∀ x ∈ f :: rest, M ≤ score x := by
        intro x hx
        rcases List.mem_cons.mp hx with hx | hx
        · rw [hx]
          exact hMleF
        · rw [hMdef]
          exact foldl_min_le_of_mem score rest _ x hx
      have hbridge : ∀ x ∈ f :: rest,
          ((f :: rest).all fun g => decide (score x ≤ score g)) = decide (score x = M) := by
        intro x hx
        by_cases hxM : score x = M
        · rw [decide_eq_true hxM, List.all_eq_true]
          intro g hg
          exact decide_eq_true (hxM ▸ hMmem g hg)
        · rw [decide_eq_false hxM]
          rw [show ((f :: rest).all fun g => decide (score x ≤ score g)) = false
              ↔ ¬((f :: rest).all fun g => decide (score x ≤ score g)) = true from
            by simp]
          rw [List.all_eq_true]
          intro hall
          apply hxM
          have hxle : score x ≤ M := by
        
            have hxf : score x ≤ score f := by
              have := hall f (by simp)
              simpa using this
            have hxrest : ∀ g ∈ rest, score x ≤ score g := by
              intro g hg
              have := hall g (by simp [hg])
              simpa using this
            rw [hMdef]
            exact le_foldl_min score rest _ _ hxf hxrest
          exact Nat.le_antisymm hxle (hMmem x hx)
      rw [List.filter_congr hbridge]
      rw [List.filter_cons]
      by_cases hfM : score f = M
      · rw [if_pos (decide_eq_true hfM), if_pos hfM.symm]
        rfl
      · rw [if_neg (show ¬(M = score f) from fun hh => hfM hh.symm)]
        rw [if_neg (show ¬(decide (score f = M) = true) from by simpa using hfM)]
        rfl
  refine ⟨hmain, rfl, ?_⟩
  intro k hk
  rw [hmain]
  apply List.filter_eq_self.mpr
  intro x hx
  rw [List.all_eq_true]
  intro g hg
  apply decide_eq_true
  rw [hk x hx, hk g hg]

/-- Witness for `DepOrMax_min_winners`: an all-tied candidate list is
returned whole. -/
theorem DepOrMax_min_winners_witness :
    DepOrMax DepSubroutine (fun n _ => if n = 1 then ({"a"} : Val) else ∅)
      ["Number"] 0 [2, 3] = [2, 3] :=
  (DepOrMax_min_winners DepSubroutine
    (fun n _ => if n = 1 then ({"a"} : Val) else ∅) ["Number"] 0 [2, 3]).2.2
    0 (by decide)

theorem orderedInsertB_perm {α : Type} (ltb : α → α → Bool) (x : α) :
    ∀ l : List α, (orderedInsertB ltb x l).Perm (x :: l) := by
  intro l
  induction l with
  | nil => exact List.Perm.refl _
  | cons y t ih =>
    rw [orderedInsertB]
    by_cases h : ltb x y
    · rw [if_pos h]
    · rw [if_neg h]
      exact (List.Perm.cons y ih).trans (List.Perm.swap x y t)

theorem insertionSortB_perm {α : Type} (ltb : α → α → Bool) :
    ∀ l : List α, (insertionSortB ltb l).Perm l := by
  intro l
  induction l with
  | nil => exact List.Perm.refl _
  | cons x t ih =>
    rw [insertionSortB]
    exact (orderedInsertB_perm ltb x _).trans (List.Perm.cons x ih)

/-- Claim C10: the partition built by `getWinnerPartition` has nonempty,
duplicate-free, pairwise disjoint cells whose union is exactly the set of
distinct underlying forms (duplicates collapsed, no surface form or other
object in any cell). -/
theorem getWinnerPartition_partition_invariants {F : Type} [DecidableEq F]
    (formLt : F → F → Bool) (strList : List F → String)
    (rank : List (F → List F → List F)) (urForms srForms : List F) :
    (∀ cell ∈ getWinnerPartition formLt strList rank urForms srForms,
        cell ≠ [] ∧ cell.Nodup)
      ∧ List.Pairwise (fun c d => ∀ x ∈ c, x ∉ d)
          (getWinnerPartition formLt strList rank urForms srForms)
      ∧ ∀ x, (∃ cell ∈ getWinnerPartition formLt strList rank urForms srForms,
          x ∈ cell) ↔ x ∈ urForms := by
  set g := fun ur => strList (otEval rank ur srForms) with hg
  set items := urForms.dedup.map (fun ur => (ur, g ur)) with hitems
  set sorted := insertionSortB (pyPairLt formLt) items with hsorted
  have hGW : getWinnerPartition formLt strList rank urForms srForms
      = ((sorted.map Prod.snd).dedup).map fun v =>
          (sorted.filter fun kv => kv.2 = v).map Prod.fst := rfl
  have hperm : sorted.Perm items := insertionSortB_perm _ _
  have hmemiff : ∀ kv : F × String, kv ∈ sorted ↔ kv ∈ items := fun kv =>
    hperm.mem_iff
  have hsnd : ∀ kv : F × String, kv ∈ sorted → kv.2 = g kv.1 := by
    intro kv hkv
    rw [hmemiff, hitems] at hkv
    obtain ⟨u, _, rfl⟩ := List.mem_map.mp hkv
    rfl
  have hitemsfst : items.map Prod.fst = urForms.dedup := by
    rw [hitems, List.map_map]
    exact List.map_id _
  have hkeysnodup : (sorted.map Prod.fst).Nodup := by
    have h1 : (sorted.map Prod.fst).Perm (items.map Prod.fst) := hperm.map _
    rw [h1.nodup_iff, hitemsfst]
    exact urForms.nodup_dedup
  have hcellmem : ∀ (v : String) (x : F),
      x ∈ (sorted.filter fun kv => kv.2 = v).map Prod.fst ↔ (x, v) ∈ sorted := by
    intro v x
    constructor
    · intro hx
      obtain ⟨kv, hkv, rfl⟩ := List.mem_map.mp hx
      obtain ⟨hkvs, hkvv⟩ := List.mem_filter.mp hkv
      have : kv.2 = v := by simpa using hkvv
      rw [show (kv.1, v) = kv from by rw [← this]] at *
      exact hkvs
    · intro hx
      refine List.mem_map.mpr ⟨(x, v), List.mem_filter.mpr ⟨hx, by simp⟩, rfl⟩
  refine ⟨?_, ?_, ?_⟩
  · -- nonempty, duplicate-free cells
    rw [hGW]
    intro cell hcell
    obtain ⟨v, hv, rfl⟩ := List.mem_map.mp hcell
    constructor
    · obtain ⟨kv, hkv, hkvv⟩ := List.mem_map.mp (List.mem_dedup.mp hv)
      refine List.ne_nil_of_mem (a := kv.1) ?_
      rw [hcellmem]
      rw [show (kv.1, v) = kv from by rw [← hkvv]]
      exact hkv
    · refine List.Nodup.sublist ?_ hkeysnodup
      exact List.Sublist.map Prod.fst (List.filter_sublist sorted)
  · -- pairwise disjointness
    rw [hGW]
    rw [List.pairwise_map]
    refine List.Pairwise.imp ?_ ((sorted.map Prod.snd).nodup_dedup)
    intro v w hvw x hxv hxw
    rw [hcellmem] at hxv hxw
    have h1 : v = g x := hsnd (x, v) hxv
    have h2 : w = g x := hsnd (x, w) hxw
    exact hvw (h1.trans h2.symm)
  · -- union is the set of distinct underlying forms
    intro x
    rw [hGW]
    constructor
    · rintro ⟨cell, hcell, hx⟩
      obtain ⟨v, _, rfl⟩ := List.mem_map.mp hcell
      rw [hcellmem] at hx
      rw [hmemiff, hitems] at hx
      obtain ⟨u, hu, huv⟩ := List.mem_map.mp hx
      have : u = x := congrArg Prod.fst huv
      rw [← List.mem_dedup, ← this]
      exact hu
    · intro hx
      have hxs : (x, g x) ∈ sorted := by
        rw [hmemiff, hitems]
        exact List.mem_map.mpr ⟨x, List.mem_dedup.mpr hx, rfl⟩
      refine ⟨(sorted.filter fun kv => kv.2 = g x).map Prod.fst, ?_, ?_⟩
      · refine List.mem_map.mpr ⟨g x, ?_, rfl⟩
        rw [List.mem_dedup]
        exact List.mem_map.mpr ⟨(x, g x), hxs, rfl⟩
      · rw [hcellmem]
        exact hxs

/-- Witness for `getWinnerPartition_partition_invariants` at a concrete
instance (duplicate underlying form `1` collapsed into one cell). -/
theorem getWinnerPartition_partition_invariants_witness :
    ∃ cell ∈ getWinnerPartition (fun _ _ => false) (fun _ => "w")
      ([] : List (Nat → List Nat → List Nat)) [1, 2, 1] [5], 1 ∈ cell :=
  ((getWinnerPartition_partition_invariants (fun _ _ => false) (fun _ => "w")
    [] [1, 2, 1] [5]).2.2 1).mpr (by decide)

theorem goodRanks_spec {F : Type} [DecidableEq F] (ft : FormType F)
    (urPartition : List (List F)) (urs vocab : List F) :
    ∀ rankings : List (Ranking F),
      goodRanks ft urPartition urs vocab false rankings
        = (rankings.filter fun rank => areSamePartitions
            (getWinnerPartition ft.formLt (pyStrList ft.reprF) (rank.map Prod.snd)
              urs vocab) urPartition).map printRanking
      ∧ goodRanks ft urPartition urs vocab true rankings
        = ((rankings.filter fun rank => areSamePartitions
            (getWinnerPartition ft.formLt (pyStrList ft.reprF) (rank.map Prod.snd)
              urs vocab) urPartition).map printRanking).take 1 := by
  intro rankings
  induction rankings with
  | nil => exact ⟨rfl, rfl⟩
  | cons r rest ih =>
    by_cases h : areSamePartitions
        (getWinnerPartition ft.formLt (pyStrList ft.reprF) (r.map Prod.snd)
          urs vocab) urPartition = true
    · constructor
      · simp only [goodRanks]
        rw [if_pos h, if_neg (by simp), List.filter_cons, if_pos h, List.map_cons, ih.1]
      · simp only [goodRanks]
        rw [if_pos h, if_pos trivial, List.filter_cons, if_pos h, List.map_cons,
          List.take_succ_cons, List.take_zero]
    · constructor
      · simp only [goodRanks]
        rw [if_neg h, List.filter_cons, if_neg h, ih.1]
      · simp only [goodRanks]
        rw [if_neg h, List.filter_cons, if_neg h, ih.2]

theorem fvrpLoop_mem {F : Type} (good : List F → List (List String)) :
    ∀ (vl : List (List F)) (v : List F) (gr : List (List String)),
      (v, gr) ∈ fvrpLoop good vl ↔ v ∈ vl ∧ gr = good v ∧ good v ≠ [] := by
  intro vl
  induction vl with
  | nil => simp [fvrpLoop]
  | cons w rest ih =>
    intro v gr
    rw [fvrpLoop]
    by_cases h : 0 < (good w).length
    · rw [if_pos h]
      constructor
      · intro hm
        rcases List.mem_cons.mp hm with hm | hm
        · obtain ⟨rfl, rfl⟩ := Prod.mk.injEq .. ▸ hm
          refine ⟨by simp, rfl, ?_⟩
          intro hnil
          rw [hnil] at h
          simp at h
        · obtain ⟨hv, hgr, hne⟩ := (ih v gr).mp hm
          exact ⟨by simp [hv], hgr, hne⟩
      · rintro ⟨hv, rfl, hne⟩
        rcases List.mem_cons.mp hv with rfl | hv
        · exact List.mem_cons_self _ _
        · exact List.mem_cons_of_mem _ ((ih v _).mpr ⟨hv, rfl, hne⟩)
    · rw [if_neg h]
      constructor
      · intro hm
        obtain ⟨hv, hgr, hne⟩ := (ih v gr).mp hm
        exact ⟨by simp [hv], hgr, hne⟩
      · rintro ⟨hv, rfl, hne⟩
        rcases List.mem_cons.mp hv with rfl | hv
        · exact absurd (by simpa [List.length_pos] using h) hne
        · exact (ih v _).mpr ⟨hv, rfl, hne⟩

theorem fvrpLoop_fst_sublist {F : Type} (good : List F → List (List String)) :
    ∀ vl : List (List F), ((fvrpLoop good vl).map Prod.fst).Sublist vl := by
  intro vl
  induction vl with
  | nil => exact List.Sublist.refl _
  | cons w rest ih =>
    rw [fvrpLoop]
    by_cases h : 0 < (good w).length
    · rw [if_pos h]
      exact List.Sublist.cons₂ w ih
    · rw [if_neg h]
      exact List.Sublist.cons w ih

theorem fvrpLoop_eq_nil {F : Type} (good : List F → List (List String)) :
    ∀ vl : List (List F), (∀ v ∈ vl, good v = []) → fvrpLoop good vl = [] := by
  intro vl
  induction vl with
  | nil => intro _; rfl
  | cons w rest ih =>
    intro hall
    rw [fvrpLoop]
    rw [if_neg (by simp [hall w (by simp)])]
    exact ih fun v hv => hall v (by simp [hv])

theorem goodRanks_ne_nil_iff {F : Type} [DecidableEq F] (ft : FormType F)
    (urPartition : List (List F)) (urs vocab : List F) (stop : Bool)
    (rankings : List (Ranking F)) :
    goodRanks ft urPartition urs vocab stop rankings ≠ []
      ↔ ∃ rank ∈ rankings, areSamePartitions
          (getWinnerPartition ft.formLt (pyStrList ft.reprF) (rank.map Prod.snd)
            urs vocab) urPartition = true := by
  have hfilter : (rankings.filter fun rank => areSamePartitions
      (getWinnerPartition ft.formLt (pyStrList ft.reprF) (rank.map Prod.snd)
        urs vocab) urPartition) ≠ []
      ↔ ∃ rank ∈ rankings, areSamePartitions
          (getWinnerPartition ft.formLt (pyStrList ft.reprF) (rank.map Prod.snd)
            urs vocab) urPartition = true := by
    rw [Ne, List.filter_eq_nil_iff]
    push_neg
    simp
  cases stop
  · rw [(goodRanks_spec ft urPartition urs vocab rankings).1]
    rw [Ne, List.map_eq_nil_iff]
    exact hfilter
  · rw [(goodRanks_spec ft urPartition urs vocab rankings).2]
    rw [Ne, List.take_eq_nil_iff]
    push_neg
    constructor
    · intro h
      refine hfilter.mp ?_
      intro hh
      exact h.2 (by rw [hh]; rfl)
    · intro h
      refine ⟨one_ne_zero, ?_⟩
      intro hmap
      exact (hfilter.mpr h) (List.map_eq_nil_iff.mp hmap)

/-- Claim C9: `findVocabularyRankingPairs` returns exactly one entry per
size-`len(targetPartition)` combination of the exclusion-filtered generated
universe for which some supplied ranking reproduces the target partition;
each entry pairs the vocabulary with its `good_ranks` list — all succeeding
rankings, or just the first when `stop` is set — and the result is the
empty list (not an error) when no vocabulary succeeds. -/
theorem findVocabularyRankingPairs_spec {F : Type} [DecidableEq F]
    (ft : FormType F) (urPartition : List (List F)) (rankings : List (Ranking F))
    (excl : List String) (stop : Bool)
    (hnd : (generateForms ft excl).Nodup) :
    (∀ (v : List F) (gr : List (List String)),
        (v, gr) ∈ findVocabularyRankingPairs ft urPartition rankings excl stop
          ↔ v ∈ List.sublistsLen urPartition.length (generateForms ft excl)
            ∧ gr = goodRanks ft urPartition urPartition.flatten v stop rankings
            ∧ gr ≠ [])
      ∧ ((findVocabularyRankingPairs ft urPartition rankings excl stop).map
          Prod.fst).Nodup
      ∧ (∀ v : List F,
          goodRanks ft urPartition urPartition.flatten v stop rankings ≠ []
            ↔ ∃ rank ∈ rankings, areSamePartitions
                (getWinnerPartition ft.formLt (pyStrList ft.reprF)
                  (rank.map Prod.snd) urPartition.flatten v) urPartition = true)
      ∧ (∀ v : List F,
          goodRanks ft urPartition urPartition.flatten v false rankings
            = (rankings.filter fun rank => areSamePartitions
                (getWinnerPartition ft.formLt (pyStrList ft.reprF)
                  (rank.map Prod.snd) urPartition.flatten v) urPartition).map
                printRanking
          ∧ goodRanks ft urPartition urPartition.flatten v true rankings
            = ((rankings.filter fun rank => areSamePartitions
                (getWinnerPartition ft.formLt (pyStrList ft.reprF)
                  (rank.map Prod.snd) urPartition.flatten v) urPartition).map
                printRanking).take 1)
      ∧ ((∀ v ∈ List.sublistsLen urPartition.length (generateForms ft excl),
            goodRanks ft urPartition urPartition.flatten v stop rankings = []) →
          findVocabularyRankingPairs ft urPartition rankings excl stop = []) := by
  have hunfold : findVocabularyRankingPairs ft urPartition rankings excl stop
      = fvrpLoop (fun vocab => goodRanks ft urPartition urPartition.flatten
          vocab stop rankings)
        (List.sublistsLen urPartition.length (generateForms ft excl)) := rfl
  refine ⟨?_, ?_, ?_, ?_, ?_⟩
  · intro v gr
    rw [hunfold]
    have hmem := fvrpLoop_mem
      (fun vocab => goodRanks ft urPartition urPartition.flatten vocab stop rankings)
      (List.sublistsLen urPartition.length (generateForms ft excl)) v gr
    constructor
    · intro hm
      obtain ⟨hv, hgr, hne⟩ := hmem.mp hm
      refine ⟨hv, hgr, ?_⟩
      rw [hgr]
      exact hne
    · rintro ⟨hv, hgr, hne⟩
      refine hmem.mpr ⟨hv, hgr, ?_⟩
      rw [← hgr]
      exact hne
  · rw [hunfold]
    exact List.Nodup.sublist (fvrpLoop_fst_sublist _ _)
      (List.nodup_sublistsLen _ hnd)
  · intro v
    exact goodRanks_ne_nil_iff ft urPartition urPartition.flatten v stop rankings
  · intro v
    exact goodRanks_spec ft urPartition urPartition.flatten v rankings
  · intro hall
    rw [hunfold]
    exact fvrpLoop_eq_nil _ _ hall

/-- Witness for `findVocabularyRankingPairs_spec` on a two-token mini form
type with no rankings: the generated universe is duplicate-free and the
search returns the empty list, whose vocabulary projection is trivially
duplicate-free. -/
theorem findVocabularyRankingPairs_spec_witness :
    ((findVocabularyRankingPairs
        (⟨[["a", "b"]], fun l => decide (l = ["a"]), fun _ => "r", fun _ _ => false⟩ :
          FormType Bool)
        [[true], [false]] [] [] true).map Prod.fst).Nodup :=
  (findVocabularyRankingPairs_spec
    ⟨[["a", "b"]], fun l => decide (l = ["a"]), fun _ => "r", fun _ _ => false⟩
    [[true], [false]] [] [] true (by decide)).2.1
